import Mathlib

/-!
# Verification of the `json!` literal macro (src/json/src/macros.rs)

This file shallowly embeds the token-tree muncher macros `json_internal`,
`json_within_array` and `json_within_object` of the repository, together with
the runtime evaluation of the code they expand to, and proves the spec's
claims about them.

Modelling notes:

* A Rust token tree is modelled by `Tok`: the keyword tokens `null`, `true`,
  `false`, the punctuation `,` and `:`, the bracketed groups `[...]`/`{...}`
  holding their own token lists, and one opaque leaf token `lit` standing for
  a host expression (matched by the `$other:expr` / `$next:expr` fragments;
  the model treats a host expression as a single token).
* Macro expansion is the build-time stage.  `jsonInternal ts : Option Code`
  returns `none` exactly when no `macro_rules` production matches, i.e. a
  build-time failure producing no code at all; `some c` is the generated
  code `c`.
* `Code` is the shape of the generated Rust code, and `evalCode` is its
  program-execution-time behaviour: `none` models a runtime panic
  (`to_value(..).unwrap()` on a failing conversion), `some v` a constructed
  value.
-/

/-- A host-expression leaf: the payload of an `$other:expr` token.  `bad` is
a value whose serde conversion fails at runtime. -/
inductive Lit where
  | num (n : Int)
  | str (s : String)
  | bad
deriving DecidableEq, Repr

/-- A Rust token tree, as the `json!` macros see it. -/
inductive Tok where
  | nullT
  | trueT
  | falseT
  | comma
  | colon
  | brack (ts : List Tok)
  | brace (ts : List Tok)
  | lit (l : Lit)
deriving Repr

mutual
/-- Size of a token tree (every token has size at least 1). -/
def Tok.size : Tok → Nat
  | .brack ts => 1 + Tok.sizeL ts
  | .brace ts => 1 + Tok.sizeL ts
  | _ => 1

/-- Total size of a token list. -/
def Tok.sizeL : List Tok → Nat
  | [] => 0
  | t :: ts => Tok.size t + Tok.sizeL ts
end

/-- The generated Rust code for one literal: the shapes produced by the
right-hand sides of `json_internal`. -/
inductive Code where
  | null
  | bool (b : Bool)
  | array (elems : List Code)
  | object (inserts : List (List Tok × Code))
  | toValueUnwrap (l : Lit)
deriving Repr

theorem Tok.size_ge_one_tok (t : Tok) : 1 ≤ t.size := by
  cases t <;> simp [Tok.size]

theorem Tok.sizeL_append (a b : List Tok) :
    Tok.sizeL (a ++ b) = Tok.sizeL a + Tok.sizeL b := by
  induction a with
  | nil => simp [Tok.sizeL]
  | cons t ts ih => simp [Tok.sizeL, ih]; omega

/-- Size of an optional value-phase buffer. -/
def Tok.sizeO : Option (List Tok) → Nat
  | none => 0
  | some ts => Tok.sizeL ts

mutual
/-- `json_internal!`: the literal dispatcher.  Input is the full token list
the macro is invoked on; `none` means no production matches (build error). -/
def jsonInternal : List Tok → Option Code
  | [.nullT] => some .null
  | [.trueT] => some (.bool true)
  | [.falseT] => some (.bool false)
  | [.brack []] => some (.array [])
  | [.brack (t :: ts)] => (jsonWithinArray [] true (t :: ts)).map .array
  | [.brace []] => some (.object [])
  | [.brace (t :: ts)] => (jsonWithinObject [] [] none (t :: ts)).map .object
  | [.lit l] => some (.toValueUnwrap l)
  | _ => none
termination_by ts => (Tok.sizeL ts, ts.length)
decreasing_by
  all_goals simp [Prod.lex_iff, Tok.size, Tok.sizeL, Tok.sizeO, Tok.sizeL_append]

/-- `json_within_array!`: the array TT muncher.  `acc` is the list of already
emitted element expressions; `f` records whether the accumulator currently
ends with a comma (so that `acc` matches `[$($elems:expr,)*]` iff
`acc.isEmpty || f` and matches `[$($elems:expr),*]` iff `acc.isEmpty || !f`).
The rules are tried in the source's order; a comma head is checked first,
which is equivalent because no element production accepts a leading comma. -/
def jsonWithinArray (acc : List Code) (f : Bool) (ts : List Tok) :
    Option (List Code) :=
  match ts with
  | [] => some acc
  | .comma :: rest =>
      if acc.isEmpty || !f then jsonWithinArray acc true rest else none
  | .nullT :: rest =>
      if acc.isEmpty || f then
        (jsonInternal [.nullT]).bind fun c => jsonWithinArray (acc ++ [c]) false rest
      else none
  | .trueT :: rest =>
      if acc.isEmpty || f then
        (jsonInternal [.trueT]).bind fun c => jsonWithinArray (acc ++ [c]) false rest
      else none
  | .falseT :: rest =>
      if acc.isEmpty || f then
        (jsonInternal [.falseT]).bind fun c => jsonWithinArray (acc ++ [c]) false rest
      else none
  | .brack g :: rest =>
      if acc.isEmpty || f then
        (jsonInternal [.brack g]).bind fun c => jsonWithinArray (acc ++ [c]) false rest
      else none
  | .brace g :: rest =>
      if acc.isEmpty || f then
        (jsonInternal [.brace g]).bind fun c => jsonWithinArray (acc ++ [c]) false rest
      else none
  | .lit l :: .comma :: rest =>
      if acc.isEmpty || f then
        (jsonInternal [.lit l]).bind fun c => jsonWithinArray (acc ++ [c]) true rest
      else none
  | [.lit l] =>
      if acc.isEmpty || f then
        (jsonInternal [.lit l]).bind fun c => jsonWithinArray (acc ++ [c]) false []
      else none
  | .lit _ :: _ :: _ => none
  | .colon :: _ => none
termination_by (Tok.sizeL ts, ts.length + 1)
decreasing_by
  all_goals simp [Prod.lex_iff, Tok.size, Tok.sizeL, Tok.sizeO, Tok.sizeL_append]
  all_goals omega

/-- `json_within_object!`: the object TT muncher.  `key` is the pending key
buffer; `val = none` is the key phase (`($key*) ()` in the macro) and
`val = some vbuf` the value phase (`($key+) : (vbuf)`).  The accumulated
`acc` records the `object.insert((key).into(), json!(value))` statements in
emission order.  Arms follow the source rule order. -/
def jsonWithinObject (acc : List (List Tok × Code)) (key : List Tok)
    (val : Option (List Tok)) (ts : List Tok) :
    Option (List (List Tok × Code)) :=
  match key, val, ts with
  | [], none, [] => some acc
  | k :: ks, some (v :: vs), [] =>
      (jsonInternal (v :: vs)).map fun c => acc ++ [(k :: ks, c)]
  | [], none, .colon :: _ => none
  | _, none, .comma :: _ => none
  | k :: ks, none, .colon :: rest =>
      jsonWithinObject acc (k :: ks) (some []) rest
  | _, some [], .comma :: _ => none
  | k :: ks, some (v :: vs), .comma :: rest =>
      (jsonInternal (v :: vs)).bind fun c =>
        jsonWithinObject (acc ++ [(k :: ks, c)]) [] none rest
  | key, none, tt :: rest =>
      jsonWithinObject acc (key ++ [tt]) none rest
  | k :: ks, some vbuf, tt :: rest =>
      jsonWithinObject acc (k :: ks) (some (vbuf ++ [tt])) rest
  | _, _, _ => none
termination_by (Tok.sizeL key + Tok.sizeO val + Tok.sizeL ts, ts.length + 1)
decreasing_by
  all_goals simp [Prod.lex_iff, Tok.size, Tok.sizeL, Tok.sizeO, Tok.sizeL_append]
  all_goals try omega
  all_goals (have hx := Tok.size_ge_one_tok k; omega)
end

/-! ## Runtime stage: the tree value and evaluation of generated code -/

/-- The external tree value type (`serde_json::Value`): tagged union of
null / bool / number / string / array / object.  The object payload is the
external ordered map, modelled as an insertion-ordered association list. -/
inductive Value where
  | null
  | bool (b : Bool)
  | num (n : Int)
  | str (s : String)
  | arr (elems : List Value)
  | obj (entries : List (String × Value))
deriving Repr

/-- The external Value Conversion Function (`serde_json::to_value`): `none`
models a conversion failure.  `.unwrap()` on that failure is a runtime
panic. -/
def toValue : Lit → Option Value
  | .num n => some (.num n)
  | .str s => some (.str s)
  | .bad => none

/-- Runtime meaning of the generated key expression `($($key)+).into()`:
defined for a single string-literal token, which is the shape every claim
exercises. -/
def evalKey : List Tok → Option String
  | [.lit (.str s)] => some s
  | _ => none

/-- Modelled from the spec: the external ordered map's
`insert(key, value)` (the `Map` type is not part of this repository's
sources).  Spec section 6: "last-write-wins on duplicate keys, preserving
original insertion position for unchanged keys and insertion-time position
for new keys". -/
def mapInsert (m : List (String × Value)) (k : String) (v : Value) :
    List (String × Value) :=
  if k ∈ m.map Prod.fst then
    m.map fun p => if p.1 = k then (k, v) else p
  else m ++ [(k, v)]

mutual
/-- Size of generated code. -/
def Code.size : Code → Nat
  | .array es => 1 + Code.sizeL es
  | .object ins => 1 + Code.sizeI ins
  | _ => 1

/-- Size of a list of generated element expressions. -/
def Code.sizeL : List Code → Nat
  | [] => 0
  | c :: cs => Code.size c + Code.sizeL cs

/-- Size of a list of generated insert statements. -/
def Code.sizeI : List (List Tok × Code) → Nat
  | [] => 0
  | e :: r => Code.size e.2 + Code.sizeI r
end

theorem Code.size_ge_one_code (c : Code) : 1 ≤ c.size := by
  cases c <;> simp [Code.size]

mutual
/-- Program-execution-time behaviour of generated code: `none` is a runtime
panic (a failed `to_value(..).unwrap()`), `some v` the constructed value. -/
def evalCode : Code → Option Value
  | .null => some .null
  | .bool b => some (.bool b)
  | .array es => (evalList es).map .arr
  | .object ins => (evalInserts [] ins).map .obj
  | .toValueUnwrap l => toValue l
termination_by c => (Code.size c, 0)
decreasing_by
  all_goals simp [Prod.lex_iff, Code.size, Code.sizeL, Code.sizeI]

/-- Evaluate `vec![e1, e2, ...]` element by element, left to right; the
first panic aborts. -/
def evalList : List Code → Option (List Value)
  | [] => some []
  | c :: cs => (evalCode c).bind fun v => (evalList cs).map (v :: ·)
termination_by cs => (Code.sizeL cs, 1)
decreasing_by
  all_goals simp [Prod.lex_iff, Code.size, Code.sizeL, Code.sizeI]
  all_goals (have hx := Code.size_ge_one_code c; omega)

/-- Run the emitted `object.insert((key).into(), json!(value))` statements
in order on the map `m`. -/
def evalInserts (m : List (String × Value)) :
    List (List Tok × Code) → Option (List (String × Value))
  | [] => some m
  | (k, c) :: r => (evalKey k).bind fun s => (evalCode c).bind fun v =>
      evalInserts (mapInsert m s v) r
termination_by ins => (Code.sizeI ins, 1)
decreasing_by
  all_goals simp [Prod.lex_iff, Code.size, Code.sizeL, Code.sizeI]
  all_goals (have hx := Code.size_ge_one_code c; omega)
end

/-- The whole `json!` pipeline: macro expansion at build time, then
evaluation of the generated code at program run time.  `none` is a
build-time failure (no code generated at all); `some none` a program that
compiles and panics when run; `some (some v)` a program that constructs
`v`. -/
def runJson (ts : List Tok) : Option (Option Value) :=
  (jsonInternal ts).map evalCode


/-! ## A description grammar of literals, its rendering to tokens, and the
generated code / runtime value it should produce -/

/-- Abstract description of a JSON literal: the grammar of section 6 of the
spec, with `lit` covering the interpolated host-expression leaves. -/
inductive J where
  | null
  | bool (b : Bool)
  | lit (l : Lit)
  | arr (elems : List J)
  | obj (entries : List (String × J))
deriving Repr

mutual
/-- Size of a literal description. -/
def J.size : J → Nat
  | .arr es => 1 + J.sizeA es
  | .obj kvs => 1 + J.sizeO kvs
  | _ => 1

/-- Size of a list of element descriptions. -/
def J.sizeA : List J → Nat
  | [] => 0
  | e :: r => J.size e + J.sizeA r

/-- Size of a list of entry descriptions. -/
def J.sizeO : List (String × J) → Nat
  | [] => 0
  | kv :: r => J.size kv.2 + J.sizeO r
end

mutual
/-- Render a literal description as the single token tree the source text
of that literal consists of (no trailing commas). -/
def J.renderTok : J → Tok
  | .null => .nullT
  | .bool true => .trueT
  | .bool false => .falseT
  | .lit l => .lit l
  | .arr es => .brack (J.renderArr es)
  | .obj kvs => .brace (J.renderObj kvs)

/-- Render an array body: elements separated by commas. -/
def J.renderArr : List J → List Tok
  | [] => []
  | [e] => [J.renderTok e]
  | e :: r => J.renderTok e :: .comma :: J.renderArr r

/-- Render an object body: `key : value` entries separated by commas. -/
def J.renderObj : List (String × J) → List Tok
  | [] => []
  | [kv] => [.lit (.str kv.1), .colon, J.renderTok kv.2]
  | kv :: r => .lit (.str kv.1) :: .colon :: J.renderTok kv.2 :: .comma :: J.renderObj r
end

mutual
/-- The code `json_internal!` is expected to generate for a description. -/
def J.code : J → Code
  | .null => .null
  | .bool b => .bool b
  | .lit l => .toValueUnwrap l
  | .arr es => .array (J.codeArr es)
  | .obj kvs => .object (J.codeObj kvs)

/-- Element expressions of a generated `vec![...]`. -/
def J.codeArr : List J → List Code
  | [] => []
  | e :: r => J.code e :: J.codeArr r

/-- Generated insert statements of an object literal. -/
def J.codeObj : List (String × J) → List (List Tok × Code)
  | [] => []
  | kv :: r => ([Tok.lit (Lit.str kv.1)], J.code kv.2) :: J.codeObj r
end

mutual
/-- The runtime value a description constructs (`none` when some leaf
conversion panics). -/
def J.denote : J → Option Value
  | .null => some .null
  | .bool b => some (.bool b)
  | .lit l => toValue l
  | .arr es => (J.denoteArr es).map .arr
  | .obj kvs => (J.denoteObj [] kvs).map .obj

/-- Runtime values of the elements of an array description, in order. -/
def J.denoteArr : List J → Option (List Value)
  | [] => some []
  | e :: r => (J.denote e).bind fun v => (J.denoteArr r).map (v :: ·)

/-- Fold the entries of an object description into the ordered map, in
encounter order. -/
def J.denoteObj (m : List (String × Value)) :
    List (String × J) → Option (List (String × Value))
  | [] => some m
  | kv :: r => (J.denote kv.2).bind fun v => J.denoteObj (mapInsert m kv.1 v) r
end

theorem J.size_ge_one_j (d : J) : 1 ≤ d.size := by
  cases d <;> simp [J.size]

theorem J.mem_sizeA {e : J} : ∀ {es : List J}, e ∈ es → J.size e ≤ J.sizeA es := by
  intro es h
  induction es with
  | nil => cases h
  | cons x r ih =>
    rcases List.mem_cons.mp h with h1 | h2
    · subst h1; simp [J.sizeA]
    · have hx := ih h2; simp [J.sizeA]; omega

theorem J.mem_sizeO {kv : String × J} :
    ∀ {kvs : List (String × J)}, kv ∈ kvs → J.size kv.2 ≤ J.sizeO kvs := by
  intro kvs h
  induction kvs with
  | nil => cases h
  | cons x r ih =>
    rcases List.mem_cons.mp h with h1 | h2
    · subst h1; simp [J.sizeO]
    · have hx := ih h2; simp [J.sizeO]; omega

theorem withinArray_renderArr (es : List J) (acc : List Code)
    (H : ∀ e ∈ es, jsonInternal [J.renderTok e] = some (J.code e)) :
    jsonWithinArray acc true (J.renderArr es) = some (acc ++ J.codeArr es) := by
  induction es generalizing acc with
  | nil => simp [J.renderArr, J.codeArr, jsonWithinArray]
  | cons e r ih =>
    have he := H e (by simp)
    cases r with
    | nil =>
      cases e with
      | bool b =>
        cases b <;>
          (simp [J.renderTok, J.code] at he;
           simp [J.renderArr, J.renderTok, J.codeArr, jsonWithinArray, he, J.code])
      | _ =>
        simp [J.renderTok, J.code] at he
        simp [J.renderArr, J.renderTok, J.codeArr, jsonWithinArray, he, J.code]
    | cons e' r' =>
      have ih' := ih (acc ++ [J.code e]) (fun x hx => H x (by simp [hx]))
      cases e with
      | bool b =>
        cases b <;>
          (simp [J.renderTok, J.code] at he;
           simp [J.renderArr, J.renderTok, jsonWithinArray, he];
           simpa [J.code, J.codeArr] using ih')
      | _ =>
        simp [J.renderTok, J.code] at he
        simp [J.renderArr, J.renderTok, jsonWithinArray, he]
        simpa [J.code, J.codeArr] using ih'

theorem withinObject_renderObj (kvs : List (String × J)) (acc : List (List Tok × Code))
    (H : ∀ kv ∈ kvs, jsonInternal [J.renderTok kv.2] = some (J.code kv.2)) :
    jsonWithinObject acc [] none (J.renderObj kvs) = some (acc ++ J.codeObj kvs) := by
  induction kvs generalizing acc with
  | nil => simp [J.renderObj, J.codeObj, jsonWithinObject]
  | cons kv r ih =>
    obtain ⟨k, v⟩ := kv
    have he := H (k, v) (by simp)
    simp only [] at he
    cases r with
    | nil =>
      cases v with
      | bool b =>
        cases b <;>
          (simp [J.renderTok, J.code] at he;
           simp [J.renderObj, J.renderTok, J.codeObj, jsonWithinObject, he, J.code])
      | _ =>
        simp [J.renderTok, J.code] at he
        simp [J.renderObj, J.renderTok, J.codeObj, jsonWithinObject, he, J.code]
    | cons kv' r' =>
      have ih' := ih (acc ++ [([Tok.lit (Lit.str k)], J.code v)]) (fun x hx => H x (by simp [hx]))
      cases v with
      | bool b =>
        cases b <;>
          (simp [J.renderTok, J.code] at he;
           simp [J.renderObj, J.renderTok, jsonWithinObject, he];
           simpa [J.code, J.codeObj] using ih')
      | _ =>
        simp [J.renderTok, J.code] at he
        simp [J.renderObj, J.renderTok, jsonWithinObject, he]
        simpa [J.code, J.codeObj] using ih'

theorem jsonInternal_render_aux :
    ∀ (n : Nat) (d : J), J.size d ≤ n → jsonInternal [J.renderTok d] = some (J.code d) := by
  intro n
  induction n with
  | zero => intro d h; have hx := J.size_ge_one_j d; omega
  | succ n ih =>
    intro d hd
    cases d with
    | null => simp [J.renderTok, J.code, jsonInternal]
    | bool b => cases b <;> simp [J.renderTok, J.code, jsonInternal]
    | lit l => simp [J.renderTok, J.code, jsonInternal]
    | arr es =>
      have H : ∀ x ∈ es, jsonInternal [J.renderTok x] = some (J.code x) := by
        intro x hx
        apply ih
        have h1 := J.mem_sizeA hx
        have h2 : J.size (J.arr es) = 1 + J.sizeA es := by simp [J.size]
        omega
      cases es with
      | nil => simp [J.renderTok, J.renderArr, J.code, J.codeArr, jsonInternal]
      | cons e r =>
        have hbody := withinArray_renderArr (e :: r) [] H
        obtain ⟨t, ts, hr⟩ : ∃ t ts, J.renderArr (e :: r) = t :: ts := by
          cases r <;> simp [J.renderArr]
        have h1 : J.renderTok (J.arr (e :: r)) = Tok.brack (t :: ts) := by
          simp [J.renderTok, hr]
        rw [h1]
        simp only [jsonInternal]
        rw [← hr, hbody]
        simp [J.code]
    | obj kvs =>
      have H : ∀ x ∈ kvs, jsonInternal [J.renderTok x.2] = some (J.code x.2) := by
        intro x hx
        apply ih
        have h1 := J.mem_sizeO hx
        have h2 : J.size (J.obj kvs) = 1 + J.sizeO kvs := by simp [J.size]
        omega
      cases kvs with
      | nil => simp [J.renderTok, J.renderObj, J.code, J.codeObj, jsonInternal]
      | cons kv r =>
        have hbody := withinObject_renderObj (kv :: r) [] H
        obtain ⟨t, ts, hr⟩ : ∃ t ts, J.renderObj (kv :: r) = t :: ts := by
          cases r <;> simp [J.renderObj]
        have h1 : J.renderTok (J.obj (kv :: r)) = Tok.brace (t :: ts) := by
          simp [J.renderTok, hr]
        rw [h1]
        simp only [jsonInternal]
        rw [← hr, hbody]
        simp [J.code]

theorem jsonInternal_render (d : J) : jsonInternal [J.renderTok d] = some (J.code d) :=
  jsonInternal_render_aux (J.size d) d le_rfl

theorem evalList_codeArr (es : List J)
    (H : ∀ e ∈ es, evalCode (J.code e) = J.denote e) :
    evalList (J.codeArr es) = J.denoteArr es := by
  induction es with
  | nil => simp [J.codeArr, J.denoteArr, evalList]
  | cons e r ih =>
    have he := H e (by simp)
    have ih' := ih (fun x hx => H x (by simp [hx]))
    simp [J.codeArr, J.denoteArr, evalList, he, ih']

theorem evalInserts_codeObj (kvs : List (String × J)) (m : List (String × Value))
    (H : ∀ kv ∈ kvs, evalCode (J.code kv.2) = J.denote kv.2) :
    evalInserts m (J.codeObj kvs) = J.denoteObj m kvs := by
  induction kvs generalizing m with
  | nil => simp [J.codeObj, J.denoteObj, evalInserts]
  | cons kv r ih =>
    obtain ⟨k, v⟩ := kv
    have he := H (k, v) (by simp)
    simp only [] at he
    have ih' := fun m => ih m (fun x hx => H x (by simp [hx]))
    simp [J.codeObj, J.denoteObj, evalInserts, evalKey, he, ih']

theorem evalCode_code_aux :
    ∀ (n : Nat) (d : J), J.size d ≤ n → evalCode (J.code d) = J.denote d := by
  intro n
  induction n with
  | zero => intro d h; have hx := J.size_ge_one_j d; omega
  | succ n ih =>
    intro d hd
    cases d with
    | null => simp [J.code, J.denote, evalCode]
    | bool b => simp [J.code, J.denote, evalCode]
    | lit l => simp [J.code, J.denote, evalCode]
    | arr es =>
      have H : ∀ x ∈ es, evalCode (J.code x) = J.denote x := by
        intro x hx
        apply ih
        have h1 := J.mem_sizeA hx
        have h2 : J.size (J.arr es) = 1 + J.sizeA es := by simp [J.size]
        omega
      simp [J.code, J.denote, evalCode, evalList_codeArr es H]
    | obj kvs =>
      have H : ∀ x ∈ kvs, evalCode (J.code x.2) = J.denote x.2 := by
        intro x hx
        apply ih
        have h1 := J.mem_sizeO hx
        have h2 : J.size (J.obj kvs) = 1 + J.sizeO kvs := by simp [J.size]
        omega
      simp [J.code, J.denote, evalCode, evalInserts_codeObj kvs [] H]

theorem evalCode_code (d : J) : evalCode (J.code d) = J.denote d :=
  evalCode_code_aux (J.size d) d le_rfl

/-- Full-pipeline correctness on every rendered literal description. -/
theorem runJson_render (d : J) : runJson [J.renderTok d] = some (J.denote d) := by
  simp [runJson, jsonInternal_render d, evalCode_code d]

theorem arr_trailing_aux :
    ∀ (n : Nat) (ts : List Tok) (acc : List Code) (f : Bool),
      ts.length ≤ n → ts ≠ [] → ts.getLast? ≠ some Tok.comma →
      jsonWithinArray acc f (ts ++ [Tok.comma]) = jsonWithinArray acc f ts := by
  intro n
  induction n with
  | zero => intro ts acc f hlen hne _; cases ts with
    | nil => exact absurd rfl hne
    | cons t r => simp at hlen
  | succ n ih =>
    intro ts acc f hlen hne hlast
    cases ts with
    | nil => exact absurd rfl hne
    | cons t rest =>
      cases t with
      | comma =>
        cases rest with
        | nil => simp at hlast
        | cons r1 r2 =>
          have hlast' : (r1 :: r2).getLast? ≠ some Tok.comma := by
            simpa [List.getLast?_cons_cons] using hlast
          have hih := ih (r1 :: r2) acc true (by simp at hlen ⊢; omega) (by simp) hlast'
          simp only [List.cons_append] at hih
          simp only [List.cons_append, jsonWithinArray]
          by_cases hc : (acc.isEmpty || !f) <;> simp [hc, hih]
      | colon => simp [jsonWithinArray]
      | nullT =>
        simp only [List.cons_append, jsonWithinArray]
        by_cases hc : (acc.isEmpty || f)
        · cases rest with
          | nil => simp [hc, jsonWithinArray]
          | cons r1 r2 =>
            have hlast' : (r1 :: r2).getLast? ≠ some Tok.comma := by
              simpa [List.getLast?_cons_cons] using hlast
            simp only [hc, Bool.true_or, Bool.or_true, if_true]
            congr 1
            funext c
            have hih := ih (r1 :: r2) (acc ++ [c]) false (by simp at hlen ⊢; omega) (by simp) hlast'
            simpa using hih
        · simp [hc]
      | trueT =>
        simp only [List.cons_append, jsonWithinArray]
        by_cases hc : (acc.isEmpty || f)
        · cases rest with
          | nil => simp [hc, jsonWithinArray]
          | cons r1 r2 =>
            have hlast' : (r1 :: r2).getLast? ≠ some Tok.comma := by
              simpa [List.getLast?_cons_cons] using hlast
            simp only [hc, if_true]
            congr 1
            funext c
            have hih := ih (r1 :: r2) (acc ++ [c]) false (by simp at hlen ⊢; omega) (by simp) hlast'
            simpa using hih
        · simp [hc]
      | falseT =>
        simp only [List.cons_append, jsonWithinArray]
        by_cases hc : (acc.isEmpty || f)
        · cases rest with
          | nil => simp [hc, jsonWithinArray]
          | cons r1 r2 =>
            have hlast' : (r1 :: r2).getLast? ≠ some Tok.comma := by
              simpa [List.getLast?_cons_cons] using hlast
            simp only [hc, if_true]
            congr 1
            funext c
            have hih := ih (r1 :: r2) (acc ++ [c]) false (by simp at hlen ⊢; omega) (by simp) hlast'
            simpa using hih
        · simp [hc]
      | brack g =>
        simp only [List.cons_append, jsonWithinArray]
        by_cases hc : (acc.isEmpty || f)
        · cases rest with
          | nil => simp [hc, jsonWithinArray]
          | cons r1 r2 =>
            have hlast' : (r1 :: r2).getLast? ≠ some Tok.comma := by
              simpa [List.getLast?_cons_cons] using hlast
            simp only [hc, if_true]
            congr 1
            funext c
            have hih := ih (r1 :: r2) (acc ++ [c]) false (by simp at hlen ⊢; omega) (by simp) hlast'
            simpa using hih
        · simp [hc]
      | brace g =>
        simp only [List.cons_append, jsonWithinArray]
        by_cases hc : (acc.isEmpty || f)
        · cases rest with
          | nil => simp [hc, jsonWithinArray]
          | cons r1 r2 =>
            have hlast' : (r1 :: r2).getLast? ≠ some Tok.comma := by
              simpa [List.getLast?_cons_cons] using hlast
            simp only [hc, if_true]
            congr 1
            funext c
            have hih := ih (r1 :: r2) (acc ++ [c]) false (by simp at hlen ⊢; omega) (by simp) hlast'
            simpa using hih
        · simp [hc]
      | lit l =>
        cases rest with
        | nil =>
          by_cases hc : (acc.isEmpty || f) <;> simp [hc, jsonWithinArray]
        | cons r1 r2 =>
          cases r1 with
          | comma =>
            cases r2 with
            | nil => simp at hlast
            | cons q1 q2 =>
              have hlast' : (q1 :: q2).getLast? ≠ some Tok.comma := by
                simpa [List.getLast?_cons_cons] using hlast
              simp only [List.cons_append, jsonWithinArray]
              by_cases hc : (acc.isEmpty || f)
              · simp only [hc, if_true]
                congr 1
                funext c
                have hih := ih (q1 :: q2) (acc ++ [c]) true (by simp at hlen ⊢; omega) (by simp) hlast'
                simpa using hih
              · simp [hc]
          | nullT => simp [jsonWithinArray]
          | trueT => simp [jsonWithinArray]
          | falseT => simp [jsonWithinArray]
          | colon => simp [jsonWithinArray]
          | brack g => simp [jsonWithinArray]
          | brace g => simp [jsonWithinArray]
          | lit l2 => simp [jsonWithinArray]

theorem obj_trailing_aux :
    ∀ (n : Nat) (ts : List Tok) (acc : List (List Tok × Code)) (key : List Tok)
      (val : Option (List Tok)),
      ts.length ≤ n → ts ≠ [] → ts.getLast? ≠ some Tok.comma →
      jsonWithinObject acc key val (ts ++ [Tok.comma]) = jsonWithinObject acc key val ts := by
  intro n
  induction n with
  | zero => intro ts acc key val hlen hne _; cases ts with
    | nil => exact absurd rfl hne
    | cons t r => simp at hlen
  | succ n ih =>
    intro ts acc key val hlen hne hlast
    cases ts with
    | nil => exact absurd rfl hne
    | cons t rest =>
      cases key with
      | nil =>
        cases val with
        | none =>
          cases t with
          | colon => simp [jsonWithinObject]
          | comma => simp [jsonWithinObject]
          | nullT =>
            cases rest with
            | nil => simp [jsonWithinObject]
            | cons r1 r2 =>
              have hlast' : (r1 :: r2).getLast? ≠ some Tok.comma := by
                simpa [List.getLast?_cons_cons] using hlast
              have hih := ih (r1 :: r2) acc [Tok.nullT] none (by simp at hlen ⊢; omega) (by simp) hlast'
              simp only [List.cons_append] at hih
              simp [jsonWithinObject, hih]
          | trueT =>
            cases rest with
            | nil => simp [jsonWithinObject]
            | cons r1 r2 =>
              have hlast' : (r1 :: r2).getLast? ≠ some Tok.comma := by
                simpa [List.getLast?_cons_cons] using hlast
              have hih := ih (r1 :: r2) acc [Tok.trueT] none (by simp at hlen ⊢; omega) (by simp) hlast'
              simp only [List.cons_append] at hih
              simp [jsonWithinObject, hih]
          | falseT =>
            cases rest with
            | nil => simp [jsonWithinObject]
            | cons r1 r2 =>
              have hlast' : (r1 :: r2).getLast? ≠ some Tok.comma := by
                simpa [List.getLast?_cons_cons] using hlast
              have hih := ih (r1 :: r2) acc [Tok.falseT] none (by simp at hlen ⊢; omega) (by simp) hlast'
              simp only [List.cons_append] at hih
              simp [jsonWithinObject, hih]
          | brack g =>
            cases rest with
            | nil => simp [jsonWithinObject]
            | cons r1 r2 =>
              have hlast' : (r1 :: r2).getLast? ≠ some Tok.comma := by
                simpa [List.getLast?_cons_cons] using hlast
              have hih := ih (r1 :: r2) acc [Tok.brack g] none (by simp at hlen ⊢; omega) (by simp) hlast'
              simp only [List.cons_append] at hih
              simp [jsonWithinObject, hih]
          | brace g =>
            cases rest with
            | nil => simp [jsonWithinObject]
            | cons r1 r2 =>
              have hlast' : (r1 :: r2).getLast? ≠ some Tok.comma := by
                simpa [List.getLast?_cons_cons] using hlast
              have hih := ih (r1 :: r2) acc [Tok.brace g] none (by simp at hlen ⊢; omega) (by simp) hlast'
              simp only [List.cons_append] at hih
              simp [jsonWithinObject, hih]
          | lit l =>
            cases rest with
            | nil => simp [jsonWithinObject]
            | cons r1 r2 =>
              have hlast' : (r1 :: r2).getLast? ≠ some Tok.comma := by
                simpa [List.getLast?_cons_cons] using hlast
              have hih := ih (r1 :: r2) acc [Tok.lit l] none (by simp at hlen ⊢; omega) (by simp) hlast'
              simp only [List.cons_append] at hih
              simp [jsonWithinObject, hih]
        | some vbuf => cases vbuf <;> cases t <;> simp [jsonWithinObject]
      | cons k ks =>
        cases val with
        | none =>
          cases t with
          | comma => simp [jsonWithinObject]
          | colon =>
            cases rest with
            | nil => simp [jsonWithinObject]
            | cons r1 r2 =>
              have hlast' : (r1 :: r2).getLast? ≠ some Tok.comma := by
                simpa [List.getLast?_cons_cons] using hlast
              have hih := ih (r1 :: r2) acc (k :: ks) (some []) (by simp at hlen ⊢; omega) (by simp) hlast'
              simp only [List.cons_append] at hih
              simp [jsonWithinObject, hih]
          | nullT =>
            cases rest with
            | nil => simp [jsonWithinObject]
            | cons r1 r2 =>
              have hlast' : (r1 :: r2).getLast? ≠ some Tok.comma := by
                simpa [List.getLast?_cons_cons] using hlast
              have hih := ih (r1 :: r2) acc (k :: ks ++ [Tok.nullT]) none (by simp at hlen ⊢; omega) (by simp) hlast'
              simp only [List.cons_append] at hih
              simp [jsonWithinObject, hih]
          | trueT =>
            cases rest with
            | nil => simp [jsonWithinObject]
            | cons r1 r2 =>
              have hlast' : (r1 :: r2).getLast? ≠ some Tok.comma := by
                simpa [List.getLast?_cons_cons] using hlast
              have hih := ih (r1 :: r2) acc (k :: ks ++ [Tok.trueT]) none (by simp at hlen ⊢; omega) (by simp) hlast'
              simp only [List.cons_append] at hih
              simp [jsonWithinObject, hih]
          | falseT =>
            cases rest with
            | nil => simp [jsonWithinObject]
            | cons r1 r2 =>
              have hlast' : (r1 :: r2).getLast? ≠ some Tok.comma := by
                simpa [List.getLast?_cons_cons] using hlast
              have hih := ih (r1 :: r2) acc (k :: ks ++ [Tok.falseT]) none (by simp at hlen ⊢; omega) (by simp) hlast'
              simp only [List.cons_append] at hih
              simp [jsonWithinObject, hih]
          | brack g =>
            cases rest with
            | nil => simp [jsonWithinObject]
            | cons r1 r2 =>
              have hlast' : (r1 :: r2).getLast? ≠ some Tok.comma := by
                simpa [List.getLast?_cons_cons] using hlast
              have hih := ih (r1 :: r2) acc (k :: ks ++ [Tok.brack g]) none (by simp at hlen ⊢; omega) (by simp) hlast'
              simp only [List.cons_append] at hih
              simp [jsonWithinObject, hih]
          | brace g =>
            cases rest with
            | nil => simp [jsonWithinObject]
            | cons r1 r2 =>
              have hlast' : (r1 :: r2).getLast? ≠ some Tok.comma := by
                simpa [List.getLast?_cons_cons] using hlast
              have hih := ih (r1 :: r2) acc (k :: ks ++ [Tok.brace g]) none (by simp at hlen ⊢; omega) (by simp) hlast'
              simp only [List.cons_append] at hih
              simp [jsonWithinObject, hih]
          | lit l =>
            cases rest with
            | nil => simp [jsonWithinObject]
            | cons r1 r2 =>
              have hlast' : (r1 :: r2).getLast? ≠ some Tok.comma := by
                simpa [List.getLast?_cons_cons] using hlast
              have hih := ih (r1 :: r2) acc (k :: ks ++ [Tok.lit l]) none (by simp at hlen ⊢; omega) (by simp) hlast'
              simp only [List.cons_append] at hih
              simp [jsonWithinObject, hih]
        | some vbuf =>
          cases vbuf with
          | nil =>
            cases t with
            | comma => simp [jsonWithinObject]
            | colon =>
              cases rest with
              | nil =>
                cases hJ : jsonInternal [Tok.colon] <;> simp [jsonWithinObject, hJ]
              | cons r1 r2 =>
                have hlast' : (r1 :: r2).getLast? ≠ some Tok.comma := by
                  simpa [List.getLast?_cons_cons] using hlast
                have hih := ih (r1 :: r2) acc (k :: ks) (some [Tok.colon]) (by simp at hlen ⊢; omega) (by simp) hlast'
                simp only [List.cons_append] at hih
                simp [jsonWithinObject, hih]
            | nullT =>
              cases rest with
              | nil =>
                cases hJ : jsonInternal [Tok.nullT] <;> simp [jsonWithinObject, hJ]
              | cons r1 r2 =>
                have hlast' : (r1 :: r2).getLast? ≠ some Tok.comma := by
                  simpa [List.getLast?_cons_cons] using hlast
                have hih := ih (r1 :: r2) acc (k :: ks) (some [Tok.nullT]) (by simp at hlen ⊢; omega) (by simp) hlast'
                simp only [List.cons_append] at hih
                simp [jsonWithinObject, hih]
            | trueT =>
              cases rest with
              | nil =>
                cases hJ : jsonInternal [Tok.trueT] <;> simp [jsonWithinObject, hJ]
              | cons r1 r2 =>
                have hlast' : (r1 :: r2).getLast? ≠ some Tok.comma := by
                  simpa [List.getLast?_cons_cons] using hlast
                have hih := ih (r1 :: r2) acc (k :: ks) (some [Tok.trueT]) (by simp at hlen ⊢; omega) (by simp) hlast'
                simp only [List.cons_append] at hih
                simp [jsonWithinObject, hih]
            | falseT =>
              cases rest with
              | nil =>
                cases hJ : jsonInternal [Tok.falseT] <;> simp [jsonWithinObject, hJ]
              | cons r1 r2 =>
                have hlast' : (r1 :: r2).getLast? ≠ some Tok.comma := by
                  simpa [List.getLast?_cons_cons] using hlast
                have hih := ih (r1 :: r2) acc (k :: ks) (some [Tok.falseT]) (by simp at hlen ⊢; omega) (by simp) hlast'
                simp only [List.cons_append] at hih
                simp [jsonWithinObject, hih]
            | brack g =>
              cases rest with
              | nil =>
                cases hJ : jsonInternal [Tok.brack g] <;> simp [jsonWithinObject, hJ]
              | cons r1 r2 =>
                have hlast' : (r1 :: r2).getLast? ≠ some Tok.comma := by
                  simpa [List.getLast?_cons_cons] using hlast
                have hih := ih (r1 :: r2) acc (k :: ks) (some [Tok.brack g]) (by simp at hlen ⊢; omega) (by simp) hlast'
                simp only [List.cons_append] at hih
                simp [jsonWithinObject, hih]
            | brace g =>
              cases rest with
              | nil =>
                cases hJ : jsonInternal [Tok.brace g] <;> simp [jsonWithinObject, hJ]
              | cons r1 r2 =>
                have hlast' : (r1 :: r2).getLast? ≠ some Tok.comma := by
                  simpa [List.getLast?_cons_cons] using hlast
                have hih := ih (r1 :: r2) acc (k :: ks) (some [Tok.brace g]) (by simp at hlen ⊢; omega) (by simp) hlast'
                simp only [List.cons_append] at hih
                simp [jsonWithinObject, hih]
            | lit l =>
              cases rest with
              | nil =>
                cases hJ : jsonInternal [Tok.lit l] <;> simp [jsonWithinObject, hJ]
              | cons r1 r2 =>
                have hlast' : (r1 :: r2).getLast? ≠ some Tok.comma := by
                  simpa [List.getLast?_cons_cons] using hlast
                have hih := ih (r1 :: r2) acc (k :: ks) (some [Tok.lit l]) (by simp at hlen ⊢; omega) (by simp) hlast'
                simp only [List.cons_append] at hih
                simp [jsonWithinObject, hih]
          | cons v vs =>
            cases t with
            | comma =>
              cases rest with
              | nil => simp at hlast
              | cons r1 r2 =>
                have hlast' : (r1 :: r2).getLast? ≠ some Tok.comma := by
                  simpa [List.getLast?_cons_cons] using hlast
                simp only [List.cons_append, jsonWithinObject]
                congr 1
                funext c
                have hih := ih (r1 :: r2) (acc ++ [(k :: ks, c)]) [] none (by simp at hlen ⊢; omega) (by simp) hlast'
                simpa using hih
            | colon =>
              cases rest with
              | nil =>
                cases hJ : jsonInternal (v :: (vs ++ [Tok.colon])) <;> simp [jsonWithinObject, hJ]
              | cons r1 r2 =>
                have hlast' : (r1 :: r2).getLast? ≠ some Tok.comma := by
                  simpa [List.getLast?_cons_cons] using hlast
                have hih := ih (r1 :: r2) acc (k :: ks) (some (v :: vs ++ [Tok.colon])) (by simp at hlen ⊢; omega) (by simp) hlast'
                simp only [List.cons_append] at hih
                simp [jsonWithinObject, hih]
            | nullT =>
              cases rest with
              | nil =>
                cases hJ : jsonInternal (v :: (vs ++ [Tok.nullT])) <;> simp [jsonWithinObject, hJ]
              | cons r1 r2 =>
                have hlast' : (r1 :: r2).getLast? ≠ some Tok.comma := by
                  simpa [List.getLast?_cons_cons] using hlast
                have hih := ih (r1 :: r2) acc (k :: ks) (some (v :: vs ++ [Tok.nullT])) (by simp at hlen ⊢; omega) (by simp) hlast'
                simp only [List.cons_append] at hih
                simp [jsonWithinObject, hih]
            | trueT =>
              cases rest with
              | nil =>
                cases hJ : jsonInternal (v :: (vs ++ [Tok.trueT])) <;> simp [jsonWithinObject, hJ]
              | cons r1 r2 =>
                have hlast' : (r1 :: r2).getLast? ≠ some Tok.comma := by
                  simpa [List.getLast?_cons_cons] using hlast
                have hih := ih (r1 :: r2) acc (k :: ks) (some (v :: vs ++ [Tok.trueT])) (by simp at hlen ⊢; omega) (by simp) hlast'
                simp only [List.cons_append] at hih
                simp [jsonWithinObject, hih]
            | falseT =>
              cases rest with
              | nil =>
                cases hJ : jsonInternal (v :: (vs ++ [Tok.falseT])) <;> simp [jsonWithinObject, hJ]
              | cons r1 r2 =>
                have hlast' : (r1 :: r2).getLast? ≠ some Tok.comma := by
                  simpa [List.getLast?_cons_cons] using hlast
                have hih := ih (r1 :: r2) acc (k :: ks) (some (v :: vs ++ [Tok.falseT])) (by simp at hlen ⊢; omega) (by simp) hlast'
                simp only [List.cons_append] at hih
                simp [jsonWithinObject, hih]
            | brack g =>
              cases rest with
              | nil =>
                cases hJ : jsonInternal (v :: (vs ++ [Tok.brack g])) <;> simp [jsonWithinObject, hJ]
              | cons r1 r2 =>
                have hlast' : (r1 :: r2).getLast? ≠ some Tok.comma := by
                  simpa [List.getLast?_cons_cons] using hlast
                have hih := ih (r1 :: r2) acc (k :: ks) (some (v :: vs ++ [Tok.brack g])) (by simp at hlen ⊢; omega) (by simp) hlast'
                simp only [List.cons_append] at hih
                simp [jsonWithinObject, hih]
            | brace g =>
              cases rest with
              | nil =>
                cases hJ : jsonInternal (v :: (vs ++ [Tok.brace g])) <;> simp [jsonWithinObject, hJ]
              | cons r1 r2 =>
                have hlast' : (r1 :: r2).getLast? ≠ some Tok.comma := by
                  simpa [List.getLast?_cons_cons] using hlast
                have hih := ih (r1 :: r2) acc (k :: ks) (some (v :: vs ++ [Tok.brace g])) (by simp at hlen ⊢; omega) (by simp) hlast'
                simp only [List.cons_append] at hih
                simp [jsonWithinObject, hih]
            | lit l =>
              cases rest with
              | nil =>
                cases hJ : jsonInternal (v :: (vs ++ [Tok.lit l])) <;> simp [jsonWithinObject, hJ]
              | cons r1 r2 =>
                have hlast' : (r1 :: r2).getLast? ≠ some Tok.comma := by
                  simpa [List.getLast?_cons_cons] using hlast
                have hih := ih (r1 :: r2) acc (k :: ks) (some (v :: vs ++ [Tok.lit l])) (by simp at hlen ⊢; omega) (by simp) hlast'
                simp only [List.cons_append] at hih
                simp [jsonWithinObject, hih]

/-- Top-level trailing-comma equivalence for array literals. -/
theorem brack_trailing (ts : List Tok) (hne : ts ≠ [])
    (hlast : ts.getLast? ≠ some Tok.comma) :
    jsonInternal [Tok.brack (ts ++ [Tok.comma])] = jsonInternal [Tok.brack ts] := by
  cases ts with
  | nil => exact absurd rfl hne
  | cons t rest =>
    have h := arr_trailing_aux (t :: rest).length (t :: rest) [] true le_rfl (by simp) hlast
    simp only [List.cons_append] at h ⊢
    simp [jsonInternal, h]

/-- Top-level trailing-comma equivalence for object literals. -/
theorem brace_trailing (ts : List Tok) (hne : ts ≠ [])
    (hlast : ts.getLast? ≠ some Tok.comma) :
    jsonInternal [Tok.brace (ts ++ [Tok.comma])] = jsonInternal [Tok.brace ts] := by
  cases ts with
  | nil => exact absurd rfl hne
  | cons t rest =>
    have h := obj_trailing_aux (t :: rest).length (t :: rest) [] [] none le_rfl (by simp) hlast
    simp only [List.cons_append] at h ⊢
    simp [jsonInternal, h]

/-- Bare commas at the start of an array body are consumed as separators. -/
theorem withinArray_leading_commas (n : Nat) (ts : List Tok) :
    jsonWithinArray [] true (List.replicate n Tok.comma ++ ts) =
      jsonWithinArray [] true ts := by
  induction n with
  | zero => simp
  | succ m ih => simp [List.replicate_succ, jsonWithinArray, ih]

/-- The entries of an object description evaluated in source order, with no
map folding at all. -/
def entriesOf : List (String × J) → Option (List (String × Value))
  | [] => some []
  | kv :: r => (J.denote kv.2).bind fun v => (entriesOf r).map ((kv.1, v) :: ·)

theorem mapInsert_fresh {m : List (String × Value)} {k : String} {v : Value}
    (h : k ∉ m.map Prod.fst) : mapInsert m k v = m ++ [(k, v)] := by
  simp [mapInsert, h]

/-- With pairwise distinct keys that are fresh for `m`, folding the entries
into the map just appends them in encounter order. -/
theorem denoteObj_nodup (kvs : List (String × J)) :
    ∀ (m : List (String × Value)),
      (∀ k ∈ kvs.map Prod.fst, k ∉ m.map Prod.fst) →
      (kvs.map Prod.fst).Nodup →
      J.denoteObj m kvs = (entriesOf kvs).map (m ++ ·) := by
  induction kvs with
  | nil => intro m _ _; simp [J.denoteObj, entriesOf]
  | cons kv r ih =>
    intro m hfresh hnodup
    obtain ⟨k, e⟩ := kv
    simp only [J.denoteObj, entriesOf]
    cases hv : J.denote e with
    | none => simp
    | some v =>
      simp only [Option.some_bind]
      have hkm : k ∉ m.map Prod.fst := hfresh k (by simp)
      rw [mapInsert_fresh hkm]
      have hmap : ((k, e) :: r).map Prod.fst = k :: r.map Prod.fst := rfl
      rw [hmap] at hnodup
      have hn := List.nodup_cons.mp hnodup
      have hfresh' : ∀ k' ∈ r.map Prod.fst, k' ∉ (m ++ [(k, v)]).map Prod.fst := by
        intro k' hk'
        simp only [List.map_append, List.mem_append, List.map_cons, List.map_nil,
          List.mem_singleton, not_or]
        constructor
        · exact hfresh k' (by simp [hk'])
        · intro hkk
          subst hkk
          exact hn.1 hk'
      rw [ih (m ++ [(k, v)]) hfresh' hn.2]
      cases entriesOf r <;> simp

/-! ## The claims -/

/-- A flat (non-nested) element: not itself an array or object literal. -/
def J.isScalar : J → Bool
  | .arr _ => false
  | .obj _ => false
  | _ => true

/-- Claim C1: for every flat array literal, the elements of the constructed
`Array` value appear in exactly the left-to-right order they occur in the
source literal; e.g. `[1,2,3]` constructs
`Array([Number(1),Number(2),Number(3)])`. -/
theorem claim_C1 :
    (∀ es : List J, (∀ e ∈ es, e.isScalar = true) →
        runJson [J.renderTok (J.arr es)] = some ((J.denoteArr es).map Value.arr))
    ∧ runJson [Tok.brack [Tok.lit (Lit.num 1), Tok.comma, Tok.lit (Lit.num 2),
        Tok.comma, Tok.lit (Lit.num 3)]]
      = some (some (Value.arr [Value.num 1, Value.num 2, Value.num 3])) := by
  constructor
  · intro es _
    rw [runJson_render (J.arr es)]
    simp [J.denote]
  · simp [runJson, jsonInternal, jsonWithinArray, evalCode, evalList, toValue]

/-- Witness for C1 at the flat literal `[5, null, true]`. -/
theorem claim_C1_witness :
    runJson [J.renderTok (J.arr [J.lit (Lit.num 5), J.null, J.bool true])] =
      some ((J.denoteArr [J.lit (Lit.num 5), J.null, J.bool true]).map Value.arr) :=
  claim_C1.1 [J.lit (Lit.num 5), J.null, J.bool true]
    (by
      intro e he
      simp only [List.mem_cons, List.not_mem_nil, or_false] at he
      rcases he with rfl | rfl | rfl <;> rfl)

/-- Claim C2: entries of an object literal are inserted in encounter (source)
order, not reordered by key (under the external ordered map's
insertion-order contract, `mapInsert`); e.g. `{"b":1,"a":2}` yields the
entries `[("b",1),("a",2)]` in that order. -/
theorem claim_C2 (kvs : List (String × J)) (h : (kvs.map Prod.fst).Nodup) :
    runJson [J.renderTok (J.obj kvs)] = some ((entriesOf kvs).map Value.obj) := by
  rw [runJson_render (J.obj kvs)]
  simp only [J.denote]
  rw [denoteObj_nodup kvs [] (by simp) h]
  cases entriesOf kvs <;> simp

/-- Witness for C2 at `{"b":1,"a":2}`: the entries come out in source order,
`[("b",1),("a",2)]`. -/
theorem claim_C2_witness :
    ((([("b", J.lit (Lit.num 1)), ("a", J.lit (Lit.num 2))] :
        List (String × J)).map Prod.fst).Nodup)
    ∧ runJson [J.renderTok (J.obj [("b", J.lit (Lit.num 1)), ("a", J.lit (Lit.num 2))])]
      = some (some (Value.obj [("b", Value.num 1), ("a", Value.num 2)])) := by
  refine ⟨by simp, ?_⟩
  have h := claim_C2 [("b", J.lit (Lit.num 1)), ("a", J.lit (Lit.num 2))] (by simp)
  rw [h]
  simp [entriesOf, J.denote, toValue]

/-- Claim C3: for any array or object literal body (nonempty, not already
ending in a comma), adding a single trailing comma after the last
element/entry produces the same result as without it: `[1,2,]` ≡ `[1,2]`
and `{"a":1,}` ≡ `{"a":1}`. -/
theorem claim_C3 (ts : List Tok) (hne : ts ≠ [])
    (hlast : ts.getLast? ≠ some Tok.comma) :
    runJson [Tok.brack (ts ++ [Tok.comma])] = runJson [Tok.brack ts]
    ∧ runJson [Tok.brace (ts ++ [Tok.comma])] = runJson [Tok.brace ts] := by
  unfold runJson
  rw [brack_trailing ts hne hlast, brace_trailing ts hne hlast]
  exact ⟨rfl, rfl⟩

/-- Witness for C3 at the bodies of `[1,2,]` ≡ `[1,2]` and
`{"a":1,}` ≡ `{"a":1}`. -/
theorem claim_C3_witness :
    runJson [Tok.brack [Tok.lit (Lit.num 1), Tok.comma, Tok.lit (Lit.num 2), Tok.comma]]
      = runJson [Tok.brack [Tok.lit (Lit.num 1), Tok.comma, Tok.lit (Lit.num 2)]]
    ∧ runJson [Tok.brace [Tok.lit (Lit.str "a"), Tok.colon, Tok.lit (Lit.num 1), Tok.comma]]
      = runJson [Tok.brace [Tok.lit (Lit.str "a"), Tok.colon, Tok.lit (Lit.num 1)]] :=
  ⟨(claim_C3 [Tok.lit (Lit.num 1), Tok.comma, Tok.lit (Lit.num 2)] (by simp) (by simp)).1,
   (claim_C3 [Tok.lit (Lit.str "a"), Tok.colon, Tok.lit (Lit.num 1)] (by simp) (by simp)).2⟩

/-- Claim C4: in the object transducer a colon with an empty key buffer and
a comma with an empty corresponding buffer match no production, so the
input is rejected at build time (`none`: no code generated at all); in
particular `{ : 1 }`, `{"k":,}` and `{"a":1,,"b":2}` all fail before the
program runs. -/
theorem claim_C4 :
    (∀ acc rest, jsonWithinObject acc [] none (Tok.colon :: rest) = none)
    ∧ (∀ acc key rest, jsonWithinObject acc key (some []) (Tok.comma :: rest) = none)
    ∧ (∀ acc key rest, jsonWithinObject acc key none (Tok.comma :: rest) = none)
    ∧ runJson [Tok.brace [Tok.colon, Tok.lit (Lit.num 1)]] = none
    ∧ runJson [Tok.brace [Tok.lit (Lit.str "k"), Tok.colon, Tok.comma]] = none
    ∧ runJson [Tok.brace [Tok.lit (Lit.str "a"), Tok.colon, Tok.lit (Lit.num 1),
        Tok.comma, Tok.comma, Tok.lit (Lit.str "b"), Tok.colon, Tok.lit (Lit.num 2)]] = none := by
  refine ⟨?_, ?_, ?_, ?_, ?_, ?_⟩
  · intro acc rest; simp [jsonWithinObject]
  · intro acc key rest; cases key <;> simp [jsonWithinObject]
  · intro acc key rest; cases key <;> simp [jsonWithinObject]
  · simp [runJson, jsonInternal, jsonWithinObject]
  · simp [runJson, jsonInternal, jsonWithinObject]
  · simp [runJson, jsonInternal, jsonWithinObject]

/-- Counterexample to C5 as stated: an array literal whose body is a
dangling comma with nothing before or after it (`[,]`), and one containing
two adjacent commas (`[,,1]`), are both matched by the comma production and
accepted at build time, not rejected. -/
theorem claim_C5_counterexample :
    jsonInternal [Tok.brack [Tok.comma]] = some (Code.array [])
    ∧ jsonInternal [Tok.brack [Tok.comma, Tok.comma, Tok.lit (Lit.num 1)]]
      = some (Code.array [Code.toValueUnwrap (Lit.num 1)])
    ∧ runJson [Tok.brack [Tok.comma]] = some (some (Value.arr [])) := by
  refine ⟨?_, ?_, ?_⟩
  · simp [jsonInternal, jsonWithinArray]
  · simp [jsonInternal, jsonWithinArray]
  · simp [runJson, jsonInternal, jsonWithinArray, evalCode, evalList]

/-- Claim C5 (amended): once at least one element has been accumulated and
its separator consumed, a further comma matches no production of the array
transducer and the literal fails at build time — e.g. `[1,,2]` and `[1,,]`;
bare commas before the first element are instead consumed as separators. -/
theorem claim_C5 :
    (∀ (c : Code) (acc : List Code) (rest : List Tok),
        jsonWithinArray (c :: acc) true (Tok.comma :: rest) = none)
    ∧ runJson [Tok.brack [Tok.lit (Lit.num 1), Tok.comma, Tok.comma,
        Tok.lit (Lit.num 2)]] = none
    ∧ runJson [Tok.brack [Tok.lit (Lit.num 1), Tok.comma, Tok.comma]] = none := by
  refine ⟨?_, ?_, ?_⟩
  · intro c acc rest; simp [jsonWithinArray]
  · simp [runJson, jsonInternal, jsonWithinArray]
  · simp [runJson, jsonInternal, jsonWithinArray]

/-- Claim C6: the literal dispatcher maps `null` to `Value::Null`,
`true`/`false` to the matching `Value::Bool`, `[]` to an empty array,
`{}` to an object with an empty map, and delegates non-empty `[ tokens ]`
and `{ tokens }` to the array and object transducers respectively. -/
theorem claim_C6 :
    runJson [Tok.nullT] = some (some Value.null)
    ∧ runJson [Tok.trueT] = some (some (Value.bool true))
    ∧ runJson [Tok.falseT] = some (some (Value.bool false))
    ∧ runJson [Tok.brack []] = some (some (Value.arr []))
    ∧ runJson [Tok.brace []] = some (some (Value.obj []))
    ∧ (∀ t ts, jsonInternal [Tok.brack (t :: ts)]
        = (jsonWithinArray [] true (t :: ts)).map Code.array)
    ∧ (∀ t ts, jsonInternal [Tok.brace (t :: ts)]
        = (jsonWithinObject [] [] none (t :: ts)).map Code.object) := by
  refine ⟨?_, ?_, ?_, ?_, ?_, ?_, ?_⟩
  · simp [runJson, jsonInternal, evalCode]
  · simp [runJson, jsonInternal, evalCode]
  · simp [runJson, jsonInternal, evalCode]
  · simp [runJson, jsonInternal, evalCode, evalList]
  · simp [runJson, jsonInternal, evalCode, evalInserts]
  · intro t ts; simp [jsonInternal]
  · intro t ts; simp [jsonInternal]

/-- Claim C7: with the external map's last-write-wins overwrite-on-insert
contract (`mapInsert`), the last entry for a duplicated key determines the
final value: `{"a":1,"a":2}` yields `{"a": 2}`, and the original insertion
position of the key is preserved: `{"a":1,"b":2,"a":3}` yields
`[("a",3),("b",2)]`. -/
theorem claim_C7 :
    (∀ (k : String) (a b : Int),
        runJson [Tok.brace [Tok.lit (Lit.str k), Tok.colon, Tok.lit (Lit.num a),
          Tok.comma, Tok.lit (Lit.str k), Tok.colon, Tok.lit (Lit.num b)]]
          = some (some (Value.obj [(k, Value.num b)])))
    ∧ runJson [Tok.brace [Tok.lit (Lit.str "a"), Tok.colon, Tok.lit (Lit.num 1),
        Tok.comma, Tok.lit (Lit.str "a"), Tok.colon, Tok.lit (Lit.num 2)]]
      = some (some (Value.obj [("a", Value.num 2)]))
    ∧ runJson [Tok.brace [Tok.lit (Lit.str "a"), Tok.colon, Tok.lit (Lit.num 1),
        Tok.comma, Tok.lit (Lit.str "b"), Tok.colon, Tok.lit (Lit.num 2),
        Tok.comma, Tok.lit (Lit.str "a"), Tok.colon, Tok.lit (Lit.num 3)]]
      = some (some (Value.obj [("a", Value.num 3), ("b", Value.num 2)])) := by
  refine ⟨?_, ?_, ?_⟩
  · intro k a b
    simp [runJson, jsonInternal, jsonWithinObject, evalCode, evalInserts,
      evalKey, toValue, mapInsert]
  · simp [runJson, jsonInternal, jsonWithinObject, evalCode, evalInserts,
      evalKey, toValue, mapInsert]
  · simp [runJson, jsonInternal, jsonWithinObject, evalCode, evalInserts,
      evalKey, toValue, mapInsert]

/-- Claim C8: nested literals are dispatched recursively, so every literal
description constructs exactly the corresponding tree; in particular
`{"x":[1,{"y":2}]}` constructs
`Object{"x": Array[Number(1), Object{"y": Number(2)}]}`. -/
theorem claim_C8 :
    (∀ d : J, runJson [J.renderTok d] = some (J.denote d))
    ∧ runJson [Tok.brace [Tok.lit (Lit.str "x"), Tok.colon,
        Tok.brack [Tok.lit (Lit.num 1), Tok.comma,
          Tok.brace [Tok.lit (Lit.str "y"), Tok.colon, Tok.lit (Lit.num 2)]]]]
      = some (some (Value.obj
          [("x", Value.arr [Value.num 1, Value.obj [("y", Value.num 2)]])])) := by
  refine ⟨runJson_render, ?_⟩
  simp [runJson, jsonInternal, jsonWithinObject, jsonWithinArray, evalCode,
    evalInserts, evalList, evalKey, toValue, mapInsert]

/-- Claim C9: a leaf that is no literal production expands to
`to_value(..).unwrap()`; the expansion itself always succeeds (never a
build-time failure), and a conversion failure surfaces only when the
program runs, as an unrecoverable panic (`some none`), not as a build-time
failure (`none`). -/
theorem claim_C9 :
    (∀ l : Lit, jsonInternal [Tok.lit l] = some (Code.toValueUnwrap l))
    ∧ (∀ l : Lit, runJson [Tok.lit l] = some (toValue l))
    ∧ runJson [Tok.lit Lit.bad] = some none
    ∧ toValue Lit.bad = none := by
  refine ⟨?_, ?_, ?_, rfl⟩
  · intro l; simp [jsonInternal]
  · intro l; simp [runJson, jsonInternal, evalCode]
  · simp [runJson, jsonInternal, evalCode, toValue]

/-- Claim C10: one or more bare commas at the very start of a non-empty
array literal are consumed as separators, so `[ , ts ]` is accepted and
constructs the same value as `[ ts ]`; in particular `[,]` constructs the
empty array. -/
theorem claim_C10 (n : Nat) (ts : List Tok) (hn : 1 ≤ n)
    (hvalid : ∃ c, jsonInternal [Tok.brack ts] = some c) :
    jsonInternal [Tok.brack (List.replicate n Tok.comma ++ ts)]
      = jsonInternal [Tok.brack ts]
    ∧ runJson [Tok.brack (List.replicate n Tok.comma ++ ts)]
      = runJson [Tok.brack ts]
    ∧ runJson [Tok.brack [Tok.comma]] = some (some (Value.arr [])) := by
  have key : jsonInternal [Tok.brack (List.replicate n Tok.comma ++ ts)]
      = jsonInternal [Tok.brack ts] := by
    cases n with
    | zero => omega
    | succ m =>
      have hbody := withinArray_leading_commas (m + 1) ts
      have hcons : List.replicate (m + 1) Tok.comma ++ ts
          = Tok.comma :: (List.replicate m Tok.comma ++ ts) := by
        simp [List.replicate_succ]
      rw [hcons]
      rw [hcons] at hbody
      cases ts with
      | nil =>
        simp only [jsonInternal]
        rw [hbody]
        simp [jsonWithinArray, jsonInternal]
      | cons t rest =>
        simp only [jsonInternal]
        rw [hbody]
  refine ⟨key, by rw [runJson, runJson, key], ?_⟩
  simp [runJson, jsonInternal, jsonWithinArray, evalCode, evalList]

/-- Witness for C10 at `[,1]` ≡ `[1]` (one leading comma). -/
theorem claim_C10_witness :
    jsonInternal [Tok.brack (List.replicate 1 Tok.comma ++ [Tok.lit (Lit.num 1)])]
      = jsonInternal [Tok.brack [Tok.lit (Lit.num 1)]] :=
  (claim_C10 1 [Tok.lit (Lit.num 1)] le_rfl
    ⟨Code.array [Code.toValueUnwrap (Lit.num 1)],
      by simp [jsonInternal, jsonWithinArray]⟩).1
